import Mathlib

/-!
Verification of the reasoning-split streaming classifier and its surrounding
service/client code (`mcp_service.py`, `base.py`, `deepseek_model.py`,
`mcp_client.py`).  Text is modelled as `List Char`; Python's substring test
(`m in s`), `s.split(m, 1)` and `s.split(m)` are embedded via a
first-occurrence function over character lists.
-/

/-- Text, modelled as a list of characters (Python `str`). -/
abbrev Str := List Char

/-- Character list of a Lean string literal. -/
def chars (s : String) : Str := s.data

/-- `leadsMatch m s` is true when `m` is an initial segment of `s`. -/
def leadsMatch : Str → Str → Bool
  | [], _ => true
  | _ :: _, [] => false
  | a :: ms, b :: bs => a == b && leadsMatch ms bs

/-- Index of the first occurrence of `m` as a contiguous substring of `s`,
    if any (the position Python's `s.find(m)` returns when non-negative). -/
def firstOcc (m : Str) : Str → Option Nat
  | [] => if leadsMatch m [] then some 0 else none
  | c :: s => if leadsMatch m (c :: s) then some 0 else Option.map (· + 1) (firstOcc m s)

/-- Python `m in s` (substring containment). -/
def containsSub (m s : Str) : Bool := (firstOcc m s).isSome

/-- Python `s.split(m, 1)[0]` when `m in s` (otherwise `s`). -/
def beforeFirst (m s : Str) : Str :=
  match firstOcc m s with
  | some i => s.take i
  | none => s

/-- Python `s.split(m, 1)[1]` when `m in s` (otherwise `s`; every use in the
    embedded code is guarded by a containment check, as in the source). -/
def afterFirst (m s : Str) : Str :=
  match firstOcc m s with
  | some i => s.drop (i + m.length)
  | none => s

theorem leadsMatch_iff (m s : Str) : leadsMatch m s = true ↔ ∃ t, s = m ++ t := by
  induction m generalizing s with
  | nil => simp [leadsMatch]
  | cons a ms ih =>
    cases s with
    | nil => simp [leadsMatch]
    | cons b bs =>
      simp only [leadsMatch, Bool.and_eq_true, beq_iff_eq, ih, List.cons_append,
        List.cons.injEq]
      constructor
      · rintro ⟨rfl, t, rfl⟩; exact ⟨t, rfl, rfl⟩
      · rintro ⟨t, rfl, rfl⟩; exact ⟨rfl, t, rfl⟩

theorem leadsMatch_nil_iff (m : Str) : leadsMatch m [] = true ↔ m = [] := by
  cases m <;> simp [leadsMatch]

theorem leadsMatch_append_right {m s : Str} (h : leadsMatch m s = true) (t : Str) :
    leadsMatch m (s ++ t) = true := by
  rcases (leadsMatch_iff m s).1 h with ⟨u, rfl⟩
  exact (leadsMatch_iff m _).2 ⟨u ++ t, by simp⟩

theorem leadsMatch_length_le {m s : Str} (h : leadsMatch m s = true) :
    m.length ≤ s.length := by
  rcases (leadsMatch_iff m s).1 h with ⟨u, rfl⟩
  simp

theorem takeAppendSelf (m t : Str) : (m ++ t).take m.length = m := by
  induction m with
  | nil => simp
  | cons a ms ih => simp [ih]

theorem dropAppendSelf (m t : Str) : (m ++ t).drop m.length = t := by
  induction m with
  | nil => simp
  | cons a ms ih => simp [ih]

theorem takeAppendLe (s t : Str) (n : Nat) (h : n ≤ s.length) :
    (s ++ t).take n = s.take n := by
  induction s generalizing n with
  | nil => have h0 : n = 0 := by simpa using h
           subst h0
           simp
  | cons a as ih =>
    cases n with
    | zero => simp
    | succ k => simp only [List.cons_append, List.take_succ_cons]
                rw [ih k (by simpa using h)]

theorem dropAppendLe (s t : Str) (n : Nat) (h : n ≤ s.length) :
    (s ++ t).drop n = s.drop n ++ t := by
  induction s generalizing n with
  | nil => have h0 : n = 0 := by simpa using h
           subst h0
           simp
  | cons a as ih =>
    cases n with
    | zero => simp
    | succ k => simp only [List.cons_append, List.drop_succ_cons]
                exact ih k (by simpa using h)

theorem leadsMatch_of_append {m s t : Str} (h : leadsMatch m (s ++ t) = true)
    (hle : m.length ≤ s.length) : leadsMatch m s = true := by
  rcases (leadsMatch_iff m (s ++ t)).1 h with ⟨u, hu⟩
  have htake : (s ++ t).take m.length = m := by rw [hu, takeAppendSelf]
  rw [takeAppendLe s t m.length hle] at htake
  exact (leadsMatch_iff m s).2 ⟨s.drop m.length, by
    conv_lhs => rw [← List.take_append_drop m.length s]
    rw [htake]⟩

theorem leadsMatch_take {m s : Str} (h : leadsMatch m s = true) (n : Nat)
    (hn : m.length ≤ n) : leadsMatch m (s.take n) = true := by
  rcases (leadsMatch_iff m s).1 h with ⟨u, rfl⟩
  refine (leadsMatch_iff m _).2 ⟨u.take (n - m.length), ?_⟩
  rw [List.take_append_eq_append_take, List.take_of_length_le hn]

/-- Soundness of `firstOcc`: the returned index is an occurrence, and it is
    the least one. -/
theorem firstOcc_spec {m s : Str} {i : Nat} (h : firstOcc m s = some i) :
    leadsMatch m (s.drop i) = true ∧ ∀ j, j < i → leadsMatch m (s.drop j) = false := by
  induction s generalizing i with
  | nil =>
    by_cases hm : leadsMatch m ([] : Str) = true
    · rw [firstOcc, if_pos hm, Option.some.injEq] at h
      subst h
      exact ⟨hm, fun j hj => absurd hj (by omega)⟩
    · rw [firstOcc, if_neg hm] at h
      exact absurd h (by simp)
  | cons c s ih =>
    by_cases hm : leadsMatch m (c :: s) = true
    · rw [firstOcc, if_pos hm, Option.some.injEq] at h
      subst h
      exact ⟨hm, fun j hj => absurd hj (by omega)⟩
    · rw [firstOcc, if_neg hm] at h
      rcases Option.map_eq_some'.mp h with ⟨i', hi', hii⟩
      subst hii
      rcases ih hi' with ⟨hocc, hmin⟩
      refine ⟨by simpa using hocc, ?_⟩
      intro j hj
      cases j with
      | zero => simpa [Bool.not_eq_true] using hm
      | succ k => simpa using hmin k (by omega)

/-- Completeness of `firstOcc`: an occurrence which is least is the result. -/
theorem firstOcc_of_spec {m s : Str} {i : Nat}
    (hocc : leadsMatch m (s.drop i) = true)
    (hmin : ∀ j, j < i → leadsMatch m (s.drop j) = false) :
    firstOcc m s = some i := by
  induction s generalizing i with
  | nil =>
    have hm : leadsMatch m [] = true := by simpa using hocc
    cases i with
    | zero => rw [firstOcc, if_pos hm]
    | succ k => have := hmin 0 (by omega); simp [hm] at this
  | cons c s ih =>
    cases i with
    | zero => simp only [List.drop_zero] at hocc
              rw [firstOcc, if_pos hocc]
    | succ k =>
      have h0 : leadsMatch m (c :: s) = false := by simpa using hmin 0 (by omega)
      have hrec : firstOcc m s = some k := by
        refine ih (by simpa using hocc) ?_
        intro j hj
        simpa using hmin (j + 1) (by omega)
      rw [firstOcc, if_neg (by simp [h0]), hrec]
      rfl

theorem firstOcc_none_spec {m s : Str} (h : firstOcc m s = none) :
    ∀ j, leadsMatch m (s.drop j) = false := by
  induction s with
  | nil =>
    intro j
    by_cases hm : leadsMatch m ([] : Str) = true
    · rw [firstOcc, if_pos hm] at h
      exact absurd h (by simp)
    · simpa [List.drop_nil, Bool.not_eq_true] using hm
  | cons c s ih =>
    intro j
    by_cases hm : leadsMatch m (c :: s) = true
    · rw [firstOcc, if_pos hm] at h
      exact absurd h (by simp)
    · rw [firstOcc, if_neg hm] at h
      have hnone : firstOcc m s = none := Option.map_eq_none'.mp h
      cases j with
      | zero => simpa [Bool.not_eq_true] using hm
      | succ k => simpa using ih hnone k

theorem firstOcc_bound {m s : Str} {i : Nat} (h : firstOcc m s = some i)
    (hm : m ≠ []) : i + m.length ≤ s.length := by
  have hocc := (firstOcc_spec h).1
  have hlen := leadsMatch_length_le hocc
  have hdrop : (s.drop i).length = s.length - i := by simp
  have hpos : 0 < m.length := by cases m with | nil => exact absurd rfl hm | cons _ _ => simp
  omega

theorem firstOcc_append {m s : Str} {i : Nat} (h : firstOcc m s = some i)
    (hm : m ≠ []) (t : Str) : firstOcc m (s ++ t) = some i := by
  rcases firstOcc_spec h with ⟨hocc, hmin⟩
  have hb := firstOcc_bound h hm
  apply firstOcc_of_spec
  · rw [dropAppendLe s t i (by omega)]
    exact leadsMatch_append_right hocc t
  · intro j hj
    rw [dropAppendLe s t j (by omega)]
    by_contra hc
    rw [Bool.not_eq_false] at hc
    have hle : m.length ≤ (s.drop j).length := by simp; omega
    have := leadsMatch_of_append hc hle
    rw [hmin j hj] at this
    exact absurd this (by simp)

theorem containsSub_append {m s : Str} (h : containsSub m s = true) (hm : m ≠ [])
    (t : Str) : containsSub m (s ++ t) = true := by
  rcases Option.isSome_iff_exists.mp h with ⟨i, hi⟩
  unfold containsSub
  rw [firstOcc_append hi hm t]
  rfl

theorem containsSub_append_false {m s t : Str} (h : containsSub m (s ++ t) = false)
    (hm : m ≠ []) : containsSub m s = false := by
  by_contra hc
  rw [Bool.not_eq_false] at hc
  rw [containsSub_append hc hm t] at h
  exact absurd h (by simp)

theorem beforeFirst_append {m s : Str} (h : containsSub m s = true) (hm : m ≠ [])
    (t : Str) : beforeFirst m (s ++ t) = beforeFirst m s := by
  rcases Option.isSome_iff_exists.mp h with ⟨i, hi⟩
  have hb := firstOcc_bound hi hm
  unfold beforeFirst
  rw [firstOcc_append hi hm t, hi]
  exact takeAppendLe s t i (by omega)

theorem afterFirst_append {m s : Str} (h : containsSub m s = true) (hm : m ≠ [])
    (t : Str) : afterFirst m (s ++ t) = afterFirst m s ++ t := by
  rcases Option.isSome_iff_exists.mp h with ⟨i, hi⟩
  have hb := firstOcc_bound hi hm
  unfold afterFirst
  rw [firstOcc_append hi hm t, hi]
  exact dropAppendLe s t (i + m.length) hb

/-- A contained pattern decomposes the text around its first occurrence. -/
theorem decompFirst {m s : Str} (h : containsSub m s = true) :
    beforeFirst m s ++ m ++ afterFirst m s = s := by
  rcases Option.isSome_iff_exists.mp h with ⟨i, hi⟩
  have hocc := (firstOcc_spec hi).1
  rcases (leadsMatch_iff m (s.drop i)).1 hocc with ⟨u, hu⟩
  have hba : beforeFirst m s = s.take i := by unfold beforeFirst; rw [hi]
  have haf : afterFirst m s = s.drop (i + m.length) := by unfold afterFirst; rw [hi]
  have hdrop : s.drop (i + m.length) = u := by
    have h2 : s.drop (i + m.length) = (s.drop i).drop m.length := by
      rw [List.drop_drop]
    rw [h2, hu, dropAppendSelf]
  rw [hba, haf, hdrop, List.append_assoc, ← hu, List.take_append_drop]

theorem containsSub_of_before {p q s : Str} (hp : p ≠ [])
    (h : containsSub p (beforeFirst q s) = true) : containsSub p s = true := by
  by_cases hq : containsSub q s = true
  · have hd := decompFirst hq
    calc containsSub p s
        = containsSub p (beforeFirst q s ++ (q ++ afterFirst q s)) := by
          rw [← List.append_assoc, hd]
      _ = true := containsSub_append h hp _
  · have : firstOcc q s = none := by
      rcases ho : firstOcc q s with _ | i
      · rfl
      · exact absurd (by unfold containsSub; rw [ho]; rfl) hq
    unfold beforeFirst at h
    rw [this] at h
    exact h

theorem dropTakeComm (s : Str) (n k : Nat) : (s.take n).drop k = (s.drop k).take (n - k) := by
  induction s generalizing n k with
  | nil => simp
  | cons a as ih =>
    cases n with
    | zero => simp
    | succ n' =>
      cases k with
      | zero => simp
      | succ k' => simpa using ih n' k'

theorem leadsMatch_of_take {m u : Str} {n : Nat} (h : leadsMatch m (u.take n) = true) :
    leadsMatch m u = true := by
  rcases (leadsMatch_iff _ _).1 h with ⟨t, ht⟩
  refine (leadsMatch_iff _ _).2 ⟨t ++ u.drop n, ?_⟩
  conv_lhs => rw [← List.take_append_drop n u]
  rw [ht, List.append_assoc]

/-- When the first occurrence of `p` lies before the first occurrence of `q`,
    taking the text after `p` inside the prefix before `q` agrees with taking
    the text before `q` inside the suffix after `p`. -/
theorem betweenComm {p q s : Str} (hpne : p ≠ []) (hqne : q ≠ [])
    (hq : containsSub q s = true)
    (hp : containsSub p (beforeFirst q s) = true) :
    afterFirst p (beforeFirst q s) = beforeFirst q (afterFirst p s) := by
  rcases Option.isSome_iff_exists.mp hq with ⟨qi, hqi⟩
  have hqb := firstOcc_bound hqi hqne
  have hB : beforeFirst q s = s.take qi := by unfold beforeFirst; rw [hqi]
  rcases Option.isSome_iff_exists.mp hp with ⟨pi, hpi⟩
  rw [hB] at hpi
  have hpb : pi + p.length ≤ qi := by
    have hb2 := firstOcc_bound hpi hpne
    simp only [List.length_take] at hb2
    omega
  rcases firstOcc_spec hpi with ⟨hpocc, hpmin⟩
  have hps : firstOcc p s = some pi := by
    apply firstOcc_of_spec
    · apply leadsMatch_of_take (n := qi - pi)
      rw [← dropTakeComm]
      exact hpocc
    · intro j hj
      by_contra hc
      rw [Bool.not_eq_false] at hc
      have hcj : leadsMatch p ((s.take qi).drop j) = true := by
        rw [dropTakeComm]
        exact leadsMatch_take hc _ (by omega)
      rw [hpmin j hj] at hcj
      exact absurd hcj (by simp)
  rcases firstOcc_spec hqi with ⟨hqocc, hqmin⟩
  have hA : afterFirst p s = s.drop (pi + p.length) := by unfold afterFirst; rw [hps]
  have hqA : firstOcc q (s.drop (pi + p.length)) = some (qi - (pi + p.length)) := by
    apply firstOcc_of_spec
    · rw [List.drop_drop]
      have he : pi + p.length + (qi - (pi + p.length)) = qi := by omega
      rw [he]
      exact hqocc
    · intro k hk
      rw [List.drop_drop]
      exact hqmin _ (by omega)
  have hL : afterFirst p (beforeFirst q s) = (s.take qi).drop (pi + p.length) := by
    rw [hB]; unfold afterFirst; rw [hpi]
  have hR : beforeFirst q (afterFirst p s)
      = (s.drop (pi + p.length)).take (qi - (pi + p.length)) := by
    rw [hA]; unfold beforeFirst; rw [hqA]
  rw [hL, hR, dropTakeComm]

/-! ### The reasoning-split streaming classifier (`MCPService.conversation_stream`) -/

/-- The reasoning marker `"思考："`. -/
def think : Str := chars "思考："

/-- The answer marker `"回答："`. -/
def answer : Str := chars "回答："

/-- Classifier phase (`state["phase"]` in the source: `"init"`, `"reasoning"`,
    `"response"`). -/
inductive Phase
  | init
  | reasoning
  | response
deriving DecidableEq

/-- One emitted streaming delta `{"reasoning": ..., "response": ...}`. -/
structure Delta where
  reasoning : Str
  response : Str
deriving DecidableEq

/-- Classifier state: `full_response` plus the `state` dict of the source
    (the timing fields `last_yield_time` / `yield_interval` have no effect on
    the emitted deltas and are omitted). -/
structure MachineState where
  phase : Phase
  full : Str
  sreasoning : Str
  sresponse : Str
deriving DecidableEq

/-- Initial classifier state (source lines 111-122). -/
def initState : MachineState := ⟨Phase.init, [], [], []⟩

/-- One iteration of the `async for chunk` loop of
    `MCPService.conversation_stream` (source lines 125-174): returns the
    updated state and the deltas yielded during this iteration.
    `sr` is `show_reasoning`. -/
def stepChunk (sr : Bool) (st : MachineState) (chunk : Str) : MachineState × List Delta :=
  if chunk = [] then (st, [])
  else
    let full := st.full ++ chunk
    match st.phase with
    | Phase.init =>
        if containsSub think full then
          let rt := afterFirst think full
          (⟨Phase.reasoning, full, rt, st.sresponse⟩, if sr then [⟨rt, []⟩] else [])
        else
          (⟨Phase.init, full, st.sreasoning, st.sresponse⟩, [])
    | Phase.reasoning =>
        if containsSub answer full then
          let parts0 := beforeFirst answer full
          let parts1 := afterFirst answer full
          let rp := if containsSub think parts0 then afterFirst think parts0 else []
          (⟨Phase.response, full, rp, parts1⟩, [⟨if sr then rp else [], parts1⟩])
        else
          let nr := afterFirst think full
          if nr ≠ st.sreasoning ∧ sr = true then
            (⟨Phase.reasoning, full, nr, st.sresponse⟩, [⟨nr, []⟩])
          else
            (⟨Phase.reasoning, full, st.sreasoning, st.sresponse⟩, [])
    | Phase.response =>
        if containsSub answer full then
          let nr := afterFirst answer full
          if nr ≠ st.sresponse then
            (⟨Phase.response, full, st.sreasoning, nr⟩, [⟨if sr then st.sreasoning else [], nr⟩])
          else
            (⟨Phase.response, full, st.sreasoning, st.sresponse⟩, [])
        else
          (⟨Phase.response, full, st.sreasoning, st.sresponse⟩, [])

/-- Folding `stepChunk` over the chunk sequence delivered by the adapter. -/
def runChunks (sr : Bool) (st : MachineState) : List Str → MachineState × List Delta
  | [] => (st, [])
  | c :: cs =>
      let p := stepChunk sr st c
      let q := runChunks sr p.1 cs
      (q.1, p.2 ++ q.2)

/-- The terminal reconciliation emission (source lines 176-188). -/
def finalDeltas (sr : Bool) (st : MachineState) : List Delta :=
  match st.phase with
  | Phase.init => [⟨[], st.full⟩]
  | Phase.reasoning => [⟨if sr then st.sreasoning else [], st.sreasoning⟩]
  | Phase.response =>
      if containsSub answer st.full then
        [⟨if sr then (if containsSub think st.full
              then beforeFirst answer (afterFirst think st.full) else []) else [],
          afterFirst answer st.full⟩]
      else []

/-- Concatenation of the fragment sequence. -/
def concatStr : List Str → Str
  | [] => []
  | c :: cs => c ++ concatStr cs

/-- The full delta sequence emitted by `MCPService.conversation_stream` when
    the adapter stream delivers `chunks` and ends normally. -/
def conversationStream (sr : Bool) (chunks : List Str) : List Delta :=
  (runChunks sr initState chunks).2 ++ finalDeltas sr (runChunks sr initState chunks).1

/-- One element of the generator's visible output: either a reasoning/response
    delta or the `{"error": ...}` delta produced by the `except` clause. -/
inductive StreamOut
  | delta (d : Delta)
  | error (msg : String)
deriving DecidableEq

/-- `MCPService.conversation_stream` including failure handling (source lines
    109-191): if obtaining a further chunk raises after `chunks` were
    delivered, the loop's yields so far are followed by exactly the one
    `{"error": str(e)}` delta — the terminal reconciliation (lines 176-188)
    is skipped because control jumps to `except`. -/
def conversationStreamRun (sr : Bool) (chunks : List Str) (failure : Option String) :
    List StreamOut :=
  match failure with
  | some msg => (runChunks sr initState chunks).2.map StreamOut.delta ++ [StreamOut.error msg]
  | none => (conversationStream sr chunks).map StreamOut.delta

example : conversationStream true [chars "思考：", chars "我在想", chars "。", chars "回答：", chars "42"] =
    [⟨[], []⟩, ⟨chars "我在想", []⟩, ⟨chars "我在想。", []⟩, ⟨chars "我在想。", []⟩,
     ⟨chars "我在想。", chars "42"⟩, ⟨chars "我在想。", chars "42"⟩] := by decide

example : conversationStream true [chars "你好"] = [⟨[], chars "你好"⟩] := by decide

theorem think_ne_nil : think ≠ [] := by decide

theorem answer_ne_nil : answer ≠ [] := by decide

theorem containsThink_append {s : Str} (h : containsSub think s = true) (t : Str) :
    containsSub think (s ++ t) = true := containsSub_append h think_ne_nil t

theorem containsAnswer_append {s : Str} (h : containsSub answer s = true) (t : Str) :
    containsSub answer (s ++ t) = true := containsSub_append h answer_ne_nil t

/-- `full_response` accumulates exactly the non-null text of the consumed
    chunks. -/
theorem stepChunk_full (sr : Bool) (st : MachineState) (c : Str) :
    (stepChunk sr st c).1.full = st.full ++ c := by
  obtain ⟨ph, f, sa, sb⟩ := st
  unfold stepChunk
  by_cases hc : c = []
  · subst hc; simp
  · simp only [if_neg hc]
    cases ph <;> dsimp only <;> split_ifs <;> rfl

theorem runChunks_full (sr : Bool) (st : MachineState) (cs : List Str) :
    (runChunks sr st cs).1.full = st.full ++ concatStr cs := by
  induction cs generalizing st with
  | nil => simp [runChunks, concatStr]
  | cons c cs ih =>
    rw [runChunks]
    dsimp only
    rw [ih, stepChunk_full, concatStr, List.append_assoc]

/-- Phase/containment invariant: outside `INIT` the accumulated text contains
    the think marker, and in `RESPONSE` it also contains the answer marker. -/
def PhaseInv (st : MachineState) : Prop :=
  (st.phase ≠ Phase.init → containsSub think st.full = true) ∧
  (st.phase = Phase.response → containsSub answer st.full = true)

theorem initState_phaseInv : PhaseInv initState := by
  constructor
  · intro h; exact absurd rfl h
  · intro h; exact absurd h (by simp [initState])

theorem stepChunk_phaseInv {st : MachineState} (sr : Bool) (c : Str) (h : PhaseInv st) :
    PhaseInv (stepChunk sr st c).1 := by
  obtain ⟨h1, h2⟩ := h
  obtain ⟨ph, f, sa, sb⟩ := st
  unfold stepChunk
  by_cases hc : c = []
  · simp only [if_pos hc]
    exact ⟨h1, h2⟩
  · simp only [if_neg hc]
    cases ph with
    | init =>
      dsimp only
      by_cases ht : containsSub think (f ++ c) = true
      · simp only [if_pos ht]
        exact ⟨fun _ => ht, fun hr => absurd hr (by simp)⟩
      · simp only [if_neg ht]
        exact ⟨fun hne => absurd rfl hne, fun hr => absurd hr (by simp)⟩
    | reasoning =>
      have htf : containsSub think f = true := h1 (by simp)
      have htc : containsSub think (f ++ c) = true := containsThink_append htf c
      dsimp only
      by_cases ha : containsSub answer (f ++ c) = true
      · simp only [if_pos ha]
        exact ⟨fun _ => htc, fun _ => ha⟩
      · simp only [if_neg ha]
        split_ifs
        · exact ⟨fun _ => htc, fun hr => absurd hr (by simp)⟩
        · exact ⟨fun _ => htc, fun hr => absurd hr (by simp)⟩
    | response =>
      have htf : containsSub think f = true := h1 (by simp)
      have htc : containsSub think (f ++ c) = true := containsThink_append htf c
      have haf : containsSub answer f = true := h2 rfl
      have hac : containsSub answer (f ++ c) = true := containsAnswer_append haf c
      dsimp only
      split_ifs <;> exact ⟨fun _ => htc, fun _ => hac⟩

theorem runChunks_phaseInv {st : MachineState} (sr : Bool) (cs : List Str) (h : PhaseInv st) :
    PhaseInv (runChunks sr st cs).1 := by
  induction cs generalizing st with
  | nil => exact h
  | cons c cs ih =>
    rw [runChunks]
    exact ih (stepChunk_phaseInv sr c h)

/-- The reasoning value captured at the reasoning→response transition
    (source lines 148-152), expressed as a function of the accumulated text. -/
def frozenReasoning (full : Str) : Str :=
  if containsSub think (beforeFirst answer full) then
    afterFirst think (beforeFirst answer full)
  else []

theorem frozenReasoning_append {s : Str} (h : containsSub answer s = true) (t : Str) :
    frozenReasoning (s ++ t) = frozenReasoning s := by
  unfold frozenReasoning
  rw [beforeFirst_append h answer_ne_nil t]

/-- Invariant tying the emitted delta prefix to the classifier state: before
    the transition every delta has an empty response; from the transition on
    every delta carries the frozen reasoning value. -/
def deltaInv (sr : Bool) (st : MachineState) (ds : List Delta) : Prop :=
  match st.phase with
  | Phase.init => ds = []
  | Phase.reasoning => ∀ d ∈ ds, d.response = []
  | Phase.response =>
      containsSub answer st.full = true ∧
      st.sreasoning = frozenReasoning st.full ∧
      ∃ pre post, ds = pre ++ post ∧ (∀ d ∈ pre, d.response = []) ∧
        (∀ d ∈ post, d.reasoning = if sr then st.sreasoning else [])

theorem stepChunk_deltaInv {sr : Bool} {st : MachineState} {ds : List Delta} (c : Str)
    (h : deltaInv sr st ds) :
    deltaInv sr (stepChunk sr st c).1 (ds ++ (stepChunk sr st c).2) := by
  obtain ⟨ph, f, sa, sb⟩ := st
  unfold stepChunk
  by_cases hc : c = []
  · simp only [if_pos hc, List.append_nil]
    exact h
  · simp only [if_neg hc]
    cases ph with
    | init =>
      have hds : ds = [] := h
      subst hds
      dsimp only
      by_cases ht : containsSub think (f ++ c) = true
      · simp only [if_pos ht]
        cases sr <;> simp [deltaInv]
      · simp only [if_neg ht]
        simp [deltaInv]
    | reasoning =>
      have hall : ∀ d ∈ ds, d.response = [] := h
      dsimp only
      by_cases ha : containsSub answer (f ++ c) = true
      · simp only [if_pos ha]
        refine ⟨ha, rfl, ds,
          [⟨if sr then (if containsSub think (beforeFirst answer (f ++ c)) then
              afterFirst think (beforeFirst answer (f ++ c)) else []) else [],
            afterFirst answer (f ++ c)⟩], rfl, hall, ?_⟩
        intro d hd
        simp only [List.mem_singleton] at hd
        subst hd
        rfl
      · simp only [if_neg ha]
        split_ifs
        · intro d hd
          rcases List.mem_append.mp hd with h1 | h2
          · exact hall d h1
          · simp only [List.mem_singleton] at h2
            subst h2
            rfl
        · intro d hd
          rcases List.mem_append.mp hd with h1 | h2
          · exact hall d h1
          · simp at h2
    | response =>
      obtain ⟨hansf, hfro, pre, post, hds, hpre, hpost⟩ := h
      have ha' : containsSub answer (f ++ c) = true := containsAnswer_append hansf c
      have hfro' : sa = frozenReasoning (f ++ c) := by
        rw [frozenReasoning_append hansf c]
        exact hfro
      dsimp only
      simp only [if_pos ha']
      by_cases hne : afterFirst answer (f ++ c) ≠ sb
      · simp only [if_pos hne]
        refine ⟨ha', hfro', pre,
          post ++ [⟨if sr then sa else [], afterFirst answer (f ++ c)⟩], ?_, hpre, ?_⟩
        · rw [hds, List.append_assoc]
        · intro d hd
          rcases List.mem_append.mp hd with h1 | h2
          · exact hpost d h1
          · simp only [List.mem_singleton] at h2
            subst h2
            rfl
      · simp only [if_neg hne]
        refine ⟨ha', hfro', pre, post, ?_, hpre, hpost⟩
        rw [hds]
        simp

theorem runChunks_deltaInv {sr : Bool} {st : MachineState} {ds : List Delta} (cs : List Str)
    (h : deltaInv sr st ds) :
    deltaInv sr (runChunks sr st cs).1 (ds ++ (runChunks sr st cs).2) := by
  induction cs generalizing st ds with
  | nil => simpa [runChunks] using h
  | cons c cs ih =>
    rw [runChunks]
    dsimp only
    have hstep := ih (stepChunk_deltaInv c h)
    rwa [List.append_assoc] at hstep

theorem initState_deltaInv (sr : Bool) : deltaInv sr initState [] := rfl

/-- If the whole run never contains the think marker, the classifier stays in
    `INIT`, accumulates the text and emits nothing. -/
theorem runChunks_init_noThink (sr : Bool) (cs : List Str) :
    ∀ st : MachineState, st.phase = Phase.init →
      containsSub think (st.full ++ concatStr cs) = false →
      runChunks sr st cs
        = (⟨Phase.init, st.full ++ concatStr cs, st.sreasoning, st.sresponse⟩, []) := by
  induction cs with
  | nil =>
    intro st hph h
    obtain ⟨ph, f, sa, sb⟩ := st
    have hph' : ph = Phase.init := hph
    subst hph'
    simp [runChunks, concatStr]
  | cons c cs ih =>
    intro st hph h
    obtain ⟨ph, f, sa, sb⟩ := st
    have hph' : ph = Phase.init := hph
    subst hph'
    have hr : containsSub think ((f ++ c) ++ concatStr cs) = false := by
      rw [List.append_assoc]
      simpa [concatStr] using h
    have hthink : containsSub think (f ++ c) = false :=
      containsSub_append_false hr think_ne_nil
    have hstep : stepChunk sr ⟨Phase.init, f, sa, sb⟩ c = (⟨Phase.init, f ++ c, sa, sb⟩, []) := by
      unfold stepChunk
      by_cases hc : c = []
      · subst hc
        simp
      · simp only [if_neg hc]
        simp [hthink]
    rw [runChunks]
    dsimp only
    rw [hstep]
    dsimp only
    rw [ih ⟨Phase.init, f ++ c, sa, sb⟩ rfl hr]
    simp [concatStr, List.append_assoc]

/-- Characterization of the terminal delta when the classifier reached the
    `RESPONSE` phase: the recomputation in the final emission (source lines
    185-188) depends only on the concatenated text. -/
theorem finalDeltas_response (sr : Bool) (chunks : List Str)
    (h : (runChunks sr initState chunks).1.phase = Phase.response) :
    finalDeltas sr (runChunks sr initState chunks).1 =
      [⟨if sr then beforeFirst answer (afterFirst think (concatStr chunks)) else [],
        afterFirst answer (concatStr chunks)⟩] := by
  have hfull : (runChunks sr initState chunks).1.full = concatStr chunks := by
    rw [runChunks_full]
    rfl
  obtain ⟨h1, h2⟩ := runChunks_phaseInv sr chunks initState_phaseInv
  have hthink := h1 (by rw [h]; simp)
  have hans := h2 h
  rw [hfull] at hthink hans
  rcases hrun : (runChunks sr initState chunks).1 with ⟨ph, f, sa, sb⟩
  rw [hrun] at h hfull
  have hph : ph = Phase.response := h
  have hf : f = concatStr chunks := hfull
  subst hph hf
  unfold finalDeltas
  rw [if_pos hans, if_pos hthink]

/-- Under the ordering hypothesis (the first answer marker, if any, is
    preceded by a think marker), the emitted delta sequence splits into a
    prefix of empty-response deltas followed by a tail whose reasoning field
    is constant. -/
theorem conversationStream_split (sr : Bool) (chunks : List Str)
    (hord : containsSub answer (concatStr chunks) = true →
            containsSub think (beforeFirst answer (concatStr chunks)) = true) :
    ∃ P T R, conversationStream sr chunks = P ++ T ∧
      (∀ d ∈ P, d.response = []) ∧ (∀ d ∈ T, d.reasoning = R) := by
  have hinv := runChunks_deltaInv chunks (initState_deltaInv sr)
  rw [List.nil_append] at hinv
  have hfull : (runChunks sr initState chunks).1.full = concatStr chunks := by
    rw [runChunks_full]
    rfl
  unfold conversationStream
  rcases hrun : (runChunks sr initState chunks).1 with ⟨ph, f, sa, sb⟩
  rw [hrun] at hinv hfull
  have hf : f = concatStr chunks := hfull
  subst hf
  cases ph with
  | init =>
    have hmid : (runChunks sr initState chunks).2 = [] := hinv
    rw [hmid]
    refine ⟨[], finalDeltas sr ⟨Phase.init, concatStr chunks, sa, sb⟩, [], rfl, by simp, ?_⟩
    intro d hd
    simp only [finalDeltas, List.mem_singleton] at hd
    subst hd
    rfl
  | reasoning =>
    have hall : ∀ d ∈ (runChunks sr initState chunks).2, d.response = [] := hinv
    refine ⟨(runChunks sr initState chunks).2,
      finalDeltas sr ⟨Phase.reasoning, concatStr chunks, sa, sb⟩,
      if sr then sa else [], rfl, hall, ?_⟩
    intro d hd
    simp only [finalDeltas, List.mem_singleton] at hd
    subst hd
    rfl
  | response =>
    obtain ⟨hans, hfro, pre, post, hmid, hpre, hpost⟩ := hinv
    have hans' : containsSub answer (concatStr chunks) = true := hans
    have hfro' : sa = frozenReasoning (concatStr chunks) := hfro
    have hthinkb := hord hans'
    have hthink : containsSub think (concatStr chunks) = true :=
      containsSub_of_before think_ne_nil hthinkb
    have hbc : beforeFirst answer (afterFirst think (concatStr chunks))
        = frozenReasoning (concatStr chunks) := by
      rw [← betweenComm think_ne_nil answer_ne_nil hans' hthinkb]
      unfold frozenReasoning
      rw [if_pos hthinkb]
    have hfinal : finalDeltas sr ⟨Phase.response, concatStr chunks, sa, sb⟩
        = [⟨if sr then sa else [], afterFirst answer (concatStr chunks)⟩] := by
      unfold finalDeltas
      rw [if_pos hans', hbc, ← hfro']
      by_cases hsr : sr = true
      · rw [if_pos hsr, if_pos hsr, if_pos hthink]
      · rw [if_neg hsr, if_neg hsr]
    rw [hmid, hfinal]
    refine ⟨pre, post ++ [⟨if sr then sa else [], afterFirst answer (concatStr chunks)⟩],
      if sr then sa else [], by rw [List.append_assoc], hpre, ?_⟩
    intro d hd
    rcases List.mem_append.mp hd with h1 | h2
    · exact hpost d h1
    · simp only [List.mem_singleton] at h2
      subst h2
      rfl

/-! ### Vendor streaming adapters (`base.py` / `deepseek_model.py`) -/

/-- `chunk.choices[0].delta` of a vendor stream event: `content` may be null. -/
structure VendorDelta where
  content : Option Str
deriving DecidableEq

structure VendorChoice where
  delta : VendorDelta
deriving DecidableEq

/-- One vendor stream event; `choices` may be empty. -/
structure VendorChunk where
  choices : List VendorChoice
deriving DecidableEq

/-- The content of a vendor chunk, if it has a choice (`chunk.choices[0].delta.content`). -/
def chunkContent (ch : VendorChunk) : Option Str :=
  match ch.choices with
  | [] => none
  | c :: _ => c.delta.content

/-- `VolcEngineModel.conversation_stream` (base.py lines 173-176): yields the
    content when `chunk.choices and chunk.choices[0].delta.content` is truthy,
    i.e. the choices list is non-empty and the content is neither null nor
    the empty string. -/
def volcConversationStream : List VendorChunk → List Str
  | [] => []
  | ch :: rest =>
      match ch.choices with
      | [] => volcConversationStream rest
      | c :: _ =>
          match c.delta.content with
          | none => volcConversationStream rest
          | some s => if s = [] then volcConversationStream rest
                      else s :: volcConversationStream rest

/-- `DeepSeekModel.conversation_stream` (deepseek_model.py lines 96-99): yields
    the content when the choices list is non-empty and the content
    `is not None`; an empty string is forwarded. -/
def deepseekConversationStream : List VendorChunk → List Str
  | [] => []
  | ch :: rest =>
      match ch.choices with
      | [] => deepseekConversationStream rest
      | c :: _ =>
          match c.delta.content with
          | none => deepseekConversationStream rest
          | some s => s :: deepseekConversationStream rest

/-! ### Session/dispatch service (`mcp_service.py`) -/

/-- `request_stats` (source lines 8-13); times are modelled as rationals, the
    `float('inf')` initial value of `min_time` as `none`. -/
structure Stats where
  total_requests : Nat
  total_time : Rat
  min_time : Option Rat
  max_time : Rat
deriving DecidableEq

/-- `MCPService._update_stats` (source lines 197-202). -/
def updateStats (s : Stats) (elapsed : Rat) : Stats :=
  { total_requests := s.total_requests + 1
    total_time := s.total_time + elapsed
    min_time := some (match s.min_time with
      | none => elapsed
      | some m => min m elapsed)
    max_time := max s.max_time elapsed }

/-- Error text of `ValueError(f"Model {model_name} not found")`. -/
def notFoundMsg (name : String) : String := "Model " ++ name ++ " not found"

/-- Outcome of one dispatched request: the result, the statistics after the
    request, and whether any adapter method was invoked. -/
structure DispatchResult (α : Type) where
  result : Except String α
  stats : Stats
  adapterInvoked : Bool

/-- `MCPService.generate` (source lines 28-38): the registry lookup precedes
    the timed adapter call; `adapterOut` stands for the adapter's reply and
    `elapsed` for the measured wall-clock duration. -/
def generateOp (models : List String) (stats : Stats) (name : String)
    (adapterOut : Str) (elapsed : Rat) : DispatchResult Str :=
  if models.contains name then
    ⟨Except.ok adapterOut, updateStats stats elapsed, true⟩
  else
    ⟨Except.error (notFoundMsg name), stats, false⟩

/-- Result shape of the non-streaming conversation: `{"response": ...}` with
    an optional `"reasoning"` key. -/
structure ConvOut where
  response : Str
  reasoning : Option Str
deriving DecidableEq

/-- `MCPService.conversation` (source lines 51-73): lookup before the timed
    adapter call. -/
def conversationOp (models : List String) (stats : Stats) (name : String)
    (adapterOut : ConvOut) (elapsed : Rat) : DispatchResult ConvOut :=
  if models.contains name then
    ⟨Except.ok adapterOut, updateStats stats elapsed, true⟩
  else
    ⟨Except.error (notFoundMsg name), stats, false⟩

/-- `MCPService.conversation_stream` dispatch wrapper (source lines 75-195):
    the registry check at lines 77-78 raises before the `try` block, so on an
    unknown model no adapter runs and the statistics update at lines 193-194
    is never reached. -/
def conversationStreamOp (models : List String) (stats : Stats) (name : String)
    (sr : Bool) (chunks : List Str) (elapsed : Rat) : DispatchResult (List Delta) :=
  if models.contains name then
    ⟨Except.ok (conversationStream sr chunks), updateStats stats elapsed, true⟩
  else
    ⟨Except.error (notFoundMsg name), stats, false⟩

/-! ### System-message injection and the non-streaming DeepSeek conversation -/

/-- A conversation message `{role, content}` (the Pydantic duck-typing of the
    source normalizes every message to such a plain mapping). -/
structure Message where
  role : String
  content : Str
deriving DecidableEq

/-- The system instruction injected by `MCPService.conversation_stream`
    (mcp_service.py line 83). -/
def serviceSystemContent : Str :=
  chars "请先进行思考，分析问题并给出推理过程，然后再给出最终答案。格式为：\n\n思考：[你的分析和推理过程]\n\n回答：[你的最终答案]"

/-- The system instruction of `DeepSeekModel.conversation_with_reasoning`
    (deepseek_model.py line 108); the same literal as the service's. -/
def deepseekSystemContent : Str :=
  chars "请先进行思考，分析问题并给出推理过程，然后再给出最终答案。格式为：\n\n思考：[你的分析和推理过程]\n\n回答：[你的最终答案]"

/-- System-message injection of `MCPService.conversation_stream`
    (mcp_service.py lines 95-106): replace the content of every existing
    system message, or prepend one if none exists. -/
def serviceInjectSystem (msgs : List Message) : List Message :=
  if msgs.any (fun m => m.role == "system") then
    msgs.map (fun m => if m.role == "system" then ⟨m.role, serviceSystemContent⟩ else m)
  else ⟨"system", serviceSystemContent⟩ :: msgs

/-- System-message injection of `DeepSeekModel.conversation_with_reasoning`
    (deepseek_model.py lines 122-135). -/
def deepseekInjectSystem (msgs : List Message) : List Message :=
  if msgs.any (fun m => m.role == "system") then
    msgs.map (fun m => if m.role == "system" then ⟨m.role, deepseekSystemContent⟩ else m)
  else ⟨"system", deepseekSystemContent⟩ :: msgs

/-- Worker for `splitAll`, structurally recursive on a fuel argument so that
    it evaluates by reduction; `s.length` fuel always suffices because each
    found occurrence of a non-empty separator consumes at least one
    character. -/
def splitAllAux (m : Str) : Nat → Str → List Str
  | 0, s => [s]
  | Nat.succ fuel, s =>
      match firstOcc m s with
      | none => [s]
      | some i => s.take i :: splitAllAux m fuel (s.drop (i + m.length))

/-- Python `s.split(m)` (all occurrences; the source never calls it with an
    empty separator, for which Python would raise). -/
def splitAll (m s : Str) : List Str := splitAllAux m s.length s

/-- The characters stripped by Python `str.strip()` (the ASCII whitespace
    relevant to this code base). -/
def isPySpace (c : Char) : Bool :=
  c == ' ' || c == '\t' || c == '\n' || c == '\r' || c == '\x0b' || c == '\x0c'

/-- Python `s.strip()`. -/
def pystrip (s : Str) : Str :=
  ((s.dropWhile isPySpace).reverse.dropWhile isPySpace).reverse

/-- Parsing of the accumulated text in
    `DeepSeekModel.conversation_with_reasoning` (deepseek_model.py lines
    150-163): split on every `"回答："`, take `parts[1]` stripped as the
    answer, and the stripped text after `"思考："` within `parts[0]` as the
    reasoning. -/
def parseWithReasoning (full : Str) : ConvOut :=
  if containsSub think full && containsSub answer full then
    let parts := splitAll answer full
    if 2 ≤ parts.length then
      let ans := pystrip (parts.getD 1 [])
      let rpart := parts.getD 0 []
      let reas := if containsSub think rpart
        then pystrip ((splitAll think rpart).getD 1 []) else []
      ⟨ans, some reas⟩
    else ⟨full, some []⟩
  else ⟨full, some []⟩

/-- `DeepSeekModel.conversation` (deepseek_model.py lines 66-83): with
    `show_reasoning` it delegates to `conversation_with_reasoning` (which
    injects the system message and parses the reply); otherwise it sends the
    messages unchanged and returns the raw completion content.  `vendorFull`
    stands for the vendor's reply text; the second component is the message
    list actually sent to the vendor. -/
def deepseekConversation (sr : Bool) (msgs : List Message) (vendorFull : Str) :
    ConvOut × List Message :=
  if sr then (parseWithReasoning vendorFull, deepseekInjectSystem msgs)
  else (⟨vendorFull, none⟩, msgs)

/-! ### Client-side stream consumption (`mcp_client.py`) -/

/-- One parsed SSE event as seen by the client: `response = none` models a
    JSON object without a `"response"` key, `some none` a null value, and
    `some (some s)` a string value. -/
structure SSEEvent where
  response : Option (Option Str)
deriving DecidableEq

/-- The string values of the `"response"` fields carried by the events, in
    order. -/
def carriedResponses : List SSEEvent → List Str
  | [] => []
  | e :: rest =>
      match e.response with
      | some (some s) => s :: carriedResponses rest
      | _ => carriedResponses rest

/-- `final_response` tracking of `MCPClient.conversation_stream`
    (mcp_client.py lines 330-334): updated whenever the event has a
    `"response"` key whose value `is not None`, including the empty string. -/
def syncFinalResponse : List SSEEvent → Str → Str
  | [], acc => acc
  | e :: rest, acc =>
      match e.response with
      | some (some s) => syncFinalResponse rest s
      | _ => syncFinalResponse rest acc

/-- `final_response` tracking of `MCPClient.conversation_stream_async`
    (mcp_client.py lines 393-397): updated only when the value is truthy,
    i.e. a non-empty string. -/
def asyncFinalResponse : List SSEEvent → Str → Str
  | [], acc => acc
  | e :: rest, acc =>
      match e.response with
      | some (some s) => if s = [] then asyncFinalResponse rest acc
                         else asyncFinalResponse rest s
      | _ => asyncFinalResponse rest acc

/-- History append after the stream ends (mcp_client.py lines 338-340 /
    403-405): one assistant message when `final_response` is truthy. -/
def clientStreamAppend (history : List Message) (finalResp : Str) : List Message :=
  if finalResp ≠ [] then history ++ [⟨"assistant", finalResp⟩] else history

/-- `MCPClient.conversation_stream` (mcp_client.py lines 276-351): the user
    message is appended to the history before the request is issued; on any
    failure an error delta is yielded and the history keeps only that user
    message; on success the final non-empty response is appended once. -/
def clientConversationStream (history : List Message) (userMsg : Str)
    (outcome : Except String (List SSEEvent)) : List Message :=
  match outcome with
  | Except.error _ => history ++ [⟨"user", userMsg⟩]
  | Except.ok events =>
      clientStreamAppend (history ++ [⟨"user", userMsg⟩]) (syncFinalResponse events [])

/-- `MCPClient.conversation_stream_async` (mcp_client.py lines 353-416). -/
def clientConversationStreamAsync (history : List Message) (userMsg : Str)
    (outcome : Except String (List SSEEvent)) : List Message :=
  match outcome with
  | Except.error _ => history ++ [⟨"user", userMsg⟩]
  | Except.ok events =>
      clientStreamAppend (history ++ [⟨"user", userMsg⟩]) (asyncFinalResponse events [])

/-- `MCPClient.conversation` (mcp_client.py lines 174-227): the user message
    is appended first (line 177); an HTTP/request failure returns an error
    dict without touching the history further; a success appends the
    assistant reply (line 217). -/
def clientConversation (history : List Message) (userMsg : Str)
    (outcome : Except String Str) : List Message × Except String Str :=
  match outcome with
  | Except.error e => (history ++ [⟨"user", userMsg⟩], Except.error e)
  | Except.ok resp =>
      (history ++ [⟨"user", userMsg⟩] ++ [⟨"assistant", resp⟩], Except.ok resp)

/-- Is the generator output an `{"error": ...}` delta? -/
def isErrOut : StreamOut → Bool
  | StreamOut.delta _ => false
  | StreamOut.error _ => true

theorem lastGetD_cons {α : Type} (a : α) (l : List α) (acc : α) :
    ((a :: l).getLast?).getD acc = (l.getLast?).getD a := by
  cases l with
  | nil => rfl
  | cons b bs =>
    rw [List.getLast?_cons_cons]
    rcases h : (b :: bs).getLast? with _ | x
    · exact absurd h (by simp [List.getLast?_eq_none_iff])
    · rfl

/-- The sync client's `final_response` is the last carried response value. -/
theorem syncFinal_eq (events : List SSEEvent) (acc : Str) :
    syncFinalResponse events acc = (carriedResponses events).getLast?.getD acc := by
  induction events generalizing acc with
  | nil => rfl
  | cons e rest ih =>
    obtain ⟨resp⟩ := e
    rcases resp with _ | r
    · exact ih acc
    · rcases r with _ | s
      · exact ih acc
      · show syncFinalResponse rest s = ((s :: carriedResponses rest).getLast?).getD acc
        rw [lastGetD_cons]
        exact ih s

/-- The async client's `final_response` is the last non-empty carried
    response value. -/
theorem asyncFinal_eq (events : List SSEEvent) (acc : Str) :
    asyncFinalResponse events acc
      = ((carriedResponses events).filter (fun t => !t.isEmpty)).getLast?.getD acc := by
  induction events generalizing acc with
  | nil => rfl
  | cons e rest ih =>
    obtain ⟨resp⟩ := e
    rcases resp with _ | r
    · exact ih acc
    · rcases r with _ | s
      · exact ih acc
      · show (if s = [] then asyncFinalResponse rest acc else asyncFinalResponse rest s)
            = (((s :: carriedResponses rest).filter (fun t => !t.isEmpty)).getLast?).getD acc
        rw [List.filter_cons]
        by_cases hs : s = []
        · subst hs
          rw [if_pos rfl, if_neg (by simp)]
          exact ih acc
        · have hemp : (!s.isEmpty) = true := by
            cases s with
            | nil => exact absurd rfl hs
            | cons _ _ => rfl
          rw [if_neg hs, if_pos hemp, lastGetD_cons]
          exact ih s

theorem mapDelta_no_err (ds : List Delta) :
    (ds.map StreamOut.delta).all (fun o => !isErrOut o) = true := by
  induction ds with
  | nil => rfl
  | cons d ds ih => simp [isErrOut, ih]

theorem mapDelta_countP (ds : List Delta) :
    List.countP isErrOut (ds.map StreamOut.delta) = 0 := by
  induction ds with
  | nil => rfl
  | cons d ds ih => simp [List.countP_cons, isErrOut, ih]

/-- The DeepSeek streaming adapter forwards every non-null vendor fragment
    verbatim and in order, including empty strings. -/
theorem deepseekStream_eq (chunks : List VendorChunk) :
    deepseekConversationStream chunks = (chunks.map chunkContent).filterMap id := by
  induction chunks with
  | nil => rfl
  | cons ch rest ih =>
    obtain ⟨cs⟩ := ch
    rcases cs with _ | ⟨⟨⟨cont⟩⟩, cs'⟩
    · simpa [deepseekConversationStream, chunkContent] using ih
    · rcases cont with _ | s
      · simpa [deepseekConversationStream, chunkContent] using ih
      · simpa [deepseekConversationStream, chunkContent] using ih

/-- The VolcEngine streaming adapter forwards the non-null vendor fragments in
    order but drops the empty ones (its guard tests truthiness). -/
theorem volcStream_eq (chunks : List VendorChunk) :
    volcConversationStream chunks
      = ((chunks.map chunkContent).filterMap id).filter (fun t => !t.isEmpty) := by
  induction chunks with
  | nil => rfl
  | cons ch rest ih =>
    obtain ⟨cs⟩ := ch
    rcases cs with _ | ⟨⟨⟨cont⟩⟩, cs'⟩
    · simpa [volcConversationStream, chunkContent] using ih
    · rcases cont with _ | s
      · simpa [volcConversationStream, chunkContent] using ih
      · by_cases hs : s = []
        · subst hs
          simpa [volcConversationStream, chunkContent] using ih
        · have hemp : (!s.isEmpty) = true := by
            cases s with
            | nil => exact absurd rfl hs
            | cons _ _ => rfl
          simp only [volcConversationStream, chunkContent, List.map_cons,
            List.filterMap_cons, id, List.filter_cons, hemp, if_pos, if_neg hs]
          rw [ih]

theorem clientConversationStream_ok (history : List Message) (userMsg : Str)
    (events : List SSEEvent) :
    clientConversationStream history userMsg (Except.ok events)
      = clientStreamAppend (history ++ [⟨"user", userMsg⟩]) (syncFinalResponse events []) := rfl

theorem clientConversationStreamAsync_ok (history : List Message) (userMsg : Str)
    (events : List SSEEvent) :
    clientConversationStreamAsync history userMsg (Except.ok events)
      = clientStreamAppend (history ++ [⟨"user", userMsg⟩]) (asyncFinalResponse events []) := rfl

/-! ### Claim theorems -/

/-- Claim C1, counterexample: for the concatenation `"思考：a 回答：b "` (think
    marker followed later by the answer marker), character-by-character
    delivery ends with the untrimmed delta `⟨"a ", "b "⟩` — not the trimmed
    `⟨"a", "b"⟩` the claim requires — and single-fragment delivery ends with a
    different delta altogether (a chunk containing both markers never leaves
    the reasoning phase, so the reasoning-fallback fires), refuting
    chunking-invariance. -/
theorem C1_counterexample :
    (conversationStream true ((chars "思考：a 回答：b ").map (fun c => [c]))).getLast?
        = some ⟨chars "a ", chars "b "⟩ ∧
    (conversationStream true [chars "思考：a 回答：b "]).getLast?
        = some ⟨chars "a 回答：b ", chars "a 回答：b "⟩ ∧
    (⟨chars "a ", chars "b "⟩ : Delta) ≠ ⟨chars "a 回答：b ", chars "a 回答：b "⟩ ∧
    chars "a " ≠ chars "a" ∧ chars "b " ≠ chars "b" := by
  refine ⟨by decide, by decide, by decide, by decide, by decide⟩

/-- Claim C1, amended: for every chunking under which the classifier reaches
    the `RESPONSE` phase, the final emitted delta has `reasoning_text` equal
    to the untrimmed substring of the concatenation between the first think
    marker and the first answer marker after it, and `response_text` equal to
    the untrimmed substring after that answer marker; both values are
    functions of the concatenation alone, so every chunking that reaches
    `RESPONSE` produces the same final delta. -/
theorem C1_amended (chunks : List Str)
    (h : (runChunks true initState chunks).1.phase = Phase.response) :
    (conversationStream true chunks).getLast? =
      some ⟨beforeFirst answer (afterFirst think (concatStr chunks)),
            afterFirst answer (concatStr chunks)⟩ := by
  unfold conversationStream
  rw [finalDeltas_response true chunks h, List.getLast?_concat]
  simp

/-- Witness for `C1_amended` at the chunking `["思考：a", "回答：b"]`. -/
theorem C1_amended_witness :
    (conversationStream true [chars "思考：a", chars "回答：b"]).getLast? =
      some ⟨beforeFirst answer (afterFirst think (concatStr [chars "思考：a", chars "回答：b"])),
            afterFirst answer (concatStr [chars "思考：a", chars "回答：b"])⟩ :=
  C1_amended [chars "思考：a", chars "回答：b"] (by decide)

/-- Claim C2, counterexample: the empty fragment sequence contains neither
    marker, yet the final delta's response is the empty string, refuting the
    claimed non-emptiness. -/
theorem C2_counterexample :
    ¬ ∀ chunks : List Str,
        containsSub think (concatStr chunks) = false →
        containsSub answer (concatStr chunks) = false →
        ∃ d : Delta, (conversationStream true chunks).getLast? = some d ∧
          d.response = concatStr chunks ∧ d.reasoning = [] ∧ d.response ≠ [] := by
  intro h
  rcases h [] (by decide) (by decide) with ⟨d, hd, hresp, hreas, hne⟩
  rw [show (conversationStream true []).getLast? = some (⟨[], []⟩ : Delta) from by decide] at hd
  have hd2 := Option.some.inj hd
  subst hd2
  exact hne rfl

/-- Claim C2, amended: when the concatenation contains neither marker, the
    classifier emits exactly one delta — the terminal one — with empty
    `reasoning_text` and the full concatenation as `response_text`; that
    response is non-empty whenever the concatenation is non-empty (for the
    empty concatenation the emitted response is empty). -/
theorem C2_amended (sr : Bool) (chunks : List Str)
    (hT : containsSub think (concatStr chunks) = false)
    (hA : containsSub answer (concatStr chunks) = false) :
    conversationStream sr chunks = [⟨[], concatStr chunks⟩] ∧
    (concatStr chunks ≠ [] →
      ∃ d : Delta, (conversationStream sr chunks).getLast? = some d ∧ d.response ≠ []) := by
  have hrun := runChunks_init_noThink sr chunks initState rfl (by simpa [initState] using hT)
  have hconv : conversationStream sr chunks = [⟨[], concatStr chunks⟩] := by
    unfold conversationStream
    rw [hrun]
    rfl
  refine ⟨hconv, ?_⟩
  intro hne
  refine ⟨⟨[], concatStr chunks⟩, ?_, hne⟩
  rw [hconv]
  rfl

/-- Witness for `C2_amended` at the fragment sequence `["你好"]`. -/
theorem C2_amended_witness :
    conversationStream true [chars "你好"] = [⟨[], concatStr [chars "你好"]⟩] ∧
    (concatStr [chars "你好"] ≠ [] →
      ∃ d : Delta, (conversationStream true [chars "你好"]).getLast? = some d ∧
        d.response ≠ []) :=
  C2_amended true [chars "你好"] (by decide) (by decide)

/-- Claim C3, counterexample: with fragments `["回答：", "思考：x回答：y", "z"]`
    (the answer marker precedes the think marker in the concatenation), the
    transition delta carries reasoning `""` together with a non-empty
    response, yet the terminal reconciliation delta recomputes reasoning
    `"x"` — the reasoning is not frozen at the transition value. -/
theorem C3_counterexample :
    conversationStream true [chars "回答：", chars "思考：x回答：y", chars "z"]
      = [⟨chars "x回答：y", []⟩, ⟨[], chars "思考：x回答：yz"⟩,
         ⟨chars "x", chars "思考：x回答：yz"⟩] ∧
    (⟨[], chars "思考：x回答：yz"⟩ : Delta).response ≠ [] ∧
    (⟨chars "x", chars "思考：x回答：yz"⟩ : Delta).reasoning
      ≠ (⟨[], chars "思考：x回答：yz"⟩ : Delta).reasoning := by
  refine ⟨by decide, by decide, by decide⟩

/-- Claim C3, amended: provided the first answer marker of the concatenation
    is preceded by a think marker (the intended well-formed output shape),
    once any delta with a non-empty response has been emitted, every later
    delta of the stream — the terminal reconciliation delta included —
    carries the same reasoning value. -/
theorem C3_amended (sr : Bool) (chunks : List Str) (i j : Nat) (di dj : Delta)
    (hord : containsSub answer (concatStr chunks) = true →
            containsSub think (beforeFirst answer (concatStr chunks)) = true)
    (hij : i < j)
    (hi : (conversationStream sr chunks)[i]? = some di)
    (hj : (conversationStream sr chunks)[j]? = some dj)
    (hresp : di.response ≠ []) :
    dj.reasoning = di.reasoning := by
  obtain ⟨P, T, R, hds, hP, hT⟩ := conversationStream_split sr chunks hord
  rw [hds] at hi hj
  by_cases hiP : i < P.length
  · rw [List.getElem?_append_left hiP] at hi
    exact absurd (hP di (List.getElem?_mem hi)) hresp
  · push_neg at hiP
    have hjP : P.length ≤ j := by omega
    rw [List.getElem?_append_right hiP] at hi
    rw [List.getElem?_append_right hjP] at hj
    rw [hT dj (List.getElem?_mem hj), hT di (List.getElem?_mem hi)]

/-- Witness for `C3_amended` at fragments `["思考：a", "回答：b", "c"]`,
    indices 1 < 2. -/
theorem C3_amended_witness :
    (⟨chars "a", chars "bc"⟩ : Delta).reasoning = (⟨chars "a", chars "b"⟩ : Delta).reasoning :=
  C3_amended true [chars "思考：a", chars "回答：b", chars "c"] 1 2
    ⟨chars "a", chars "b"⟩ ⟨chars "a", chars "bc"⟩
    (by decide) (by decide) (by decide) (by decide) (by decide)

/-- Claim C4, code bug: with `show_reasoning=false` every delta does carry an
    empty `reasoning_text`, but the final response can differ from the value
    computed with reasoning display enabled: for fragments `["思考：a", "b"]`
    the suppressed run ends with response `"a"` while the same input with
    `show_reasoning=true` ends with `"ab"` — the `and show_reasoning`
    conjunct in `if new_reasoning != state["reasoning"] and show_reasoning:`
    (mcp_service.py line 160) wrongly gates the internal state update that the
    reasoning-only fallback later reads, contradicting the documented intent
    that suppression affects display only. -/
theorem C4_code_bug_eval :
    (conversationStream false [chars "思考：a", chars "b"]).getLast?
        = some ⟨[], chars "a"⟩ ∧
    (conversationStream true [chars "思考：a", chars "b"]).getLast?
        = some ⟨chars "ab", chars "ab"⟩ ∧
    chars "a" ≠ chars "ab" ∧
    (∀ d ∈ conversationStream false [chars "思考：a", chars "b"], d.reasoning = []) := by
  refine ⟨by decide, by decide, by decide, by decide⟩

/-- Claim C5: when obtaining the next input chunk raises after some chunks
    were delivered, the generator's output is the loop's deltas followed by
    exactly one error delta, which is the last element — no delta of any kind
    follows it. -/
theorem C5_error_terminal (sr : Bool) (chunks : List Str) (msg : String) :
    (conversationStreamRun sr chunks (some msg)).getLast? = some (StreamOut.error msg) ∧
    List.countP isErrOut (conversationStreamRun sr chunks (some msg)) = 1 ∧
    (conversationStreamRun sr chunks (some msg)).dropLast.all (fun o => !isErrOut o) = true := by
  unfold conversationStreamRun
  refine ⟨List.getLast?_concat _, ?_, ?_⟩
  · rw [List.countP_append, mapDelta_countP]
    simp [List.countP_cons, isErrOut]
  · rw [List.dropLast_concat]
    exact mapDelta_no_err _

/-- Claim C6: for a model name absent from the registry, `generate`,
    `conversation` and `conversation_stream` all fail with the model-not-found
    error before any adapter method is invoked, and the request statistics are
    left exactly unchanged. -/
theorem C6_unknown_model (models : List String) (stats : Stats) (name : String)
    (adapterOut : Str) (convOut : ConvOut) (sr : Bool) (chunks : List Str) (elapsed : Rat)
    (h : models.contains name = false) :
    generateOp models stats name adapterOut elapsed
        = ⟨Except.error (notFoundMsg name), stats, false⟩ ∧
    conversationOp models stats name convOut elapsed
        = ⟨Except.error (notFoundMsg name), stats, false⟩ ∧
    conversationStreamOp models stats name sr chunks elapsed
        = ⟨Except.error (notFoundMsg name), stats, false⟩ := by
  have hcond : ¬(models.contains name = true) := by rw [h]; simp
  unfold generateOp conversationOp conversationStreamOp
  rw [if_neg hcond, if_neg hcond, if_neg hcond]
  exact ⟨rfl, rfl, rfl⟩

/-- Witness for `C6_unknown_model` with registry `["dsv3", "dsr1"]` and the
    unknown name `"nonexistent"`. -/
theorem C6_unknown_model_witness :
    generateOp ["dsv3", "dsr1"] ⟨0, 0, none, 0⟩ "nonexistent" [] 1
        = ⟨Except.error (notFoundMsg "nonexistent"), ⟨0, 0, none, 0⟩, false⟩ ∧
    conversationOp ["dsv3", "dsr1"] ⟨0, 0, none, 0⟩ "nonexistent" ⟨[], none⟩ 1
        = ⟨Except.error (notFoundMsg "nonexistent"), ⟨0, 0, none, 0⟩, false⟩ ∧
    conversationStreamOp ["dsv3", "dsr1"] ⟨0, 0, none, 0⟩ "nonexistent" true [] 1
        = ⟨Except.error (notFoundMsg "nonexistent"), ⟨0, 0, none, 0⟩, false⟩ :=
  C6_unknown_model ["dsv3", "dsr1"] ⟨0, 0, none, 0⟩ "nonexistent" [] ⟨[], none⟩ true [] 1
    (by decide)

/-- Claim C7, counterexample: for the same vendor reply text
    `"思考：x回答：y回答：z"`, the non-streaming DeepSeek path answers the
    stripped segment between the first two answer markers (`"y"`), while the
    streaming path's final response is the untrimmed suffix after the first
    answer marker (`"y回答：z"`); moreover with `show_reasoning=false` the
    non-streaming path sends the messages without any system injection while
    the streaming service always injects one. -/
theorem C7_counterexample :
    (parseWithReasoning (chars "思考：x回答：y回答：z")).response = chars "y" ∧
    concatStr [chars "思考：x", chars "回答：y回答：z"] = chars "思考：x回答：y回答：z" ∧
    (conversationStream true [chars "思考：x", chars "回答：y回答：z"]).getLast?
        = some ⟨chars "x", chars "y回答：z"⟩ ∧
    chars "y" ≠ chars "y回答：z" ∧
    (deepseekConversation false [⟨"user", chars "hi"⟩] []).2 = [⟨"user", chars "hi"⟩] ∧
    serviceInjectSystem [⟨"user", chars "hi"⟩]
        = ⟨"system", serviceSystemContent⟩ :: [⟨"user", chars "hi"⟩] ∧
    (deepseekConversation false [⟨"user", chars "hi"⟩] []).2
        ≠ serviceInjectSystem [⟨"user", chars "hi"⟩] := by
  refine ⟨by decide, by decide, by decide, by decide, by decide, by decide, by decide⟩

/-- Claim C7, amended: the streaming service and the reasoning-enabled
    DeepSeek conversation path do apply the identical replace-or-prepend
    system-message injection (with the same instruction text); the divergence
    is confined to the `show_reasoning=false` non-streaming path (no
    injection) and to the final parsing (strip plus segment between the first
    two answer markers versus untrimmed suffix after the first). -/
theorem C7_amended_injection (msgs : List Message) :
    serviceInjectSystem msgs = deepseekInjectSystem msgs ∧
    (deepseekConversation true msgs []).2 = serviceInjectSystem msgs := by
  exact ⟨rfl, rfl⟩

/-- Claim C8, counterexample: on a vendor chunk whose delta content is the
    empty string, the DeepSeek adapter forwards it but the VolcEngine adapter
    drops it — its guard `chunk.choices and chunk.choices[0].delta.content`
    tests truthiness, not `is not None`. -/
theorem C8_counterexample :
    volcConversationStream [⟨[⟨⟨some []⟩⟩]⟩] = [] ∧
    deepseekConversationStream [⟨[⟨⟨some []⟩⟩]⟩] = [[]] ∧
    ([] : List Str) ≠ [[]] := by
  refine ⟨rfl, rfl, by simp⟩

/-- Claim C8, amended: `DeepSeekModel.conversation_stream` yields every
    non-null vendor content fragment verbatim and in order, empty strings
    included, while `VolcEngineModel.conversation_stream` yields the non-null
    fragments verbatim and in order except that it drops empty-string
    fragments. -/
theorem C8_amended (chunks : List VendorChunk) :
    deepseekConversationStream chunks = (chunks.map chunkContent).filterMap id ∧
    volcConversationStream chunks
      = ((chunks.map chunkContent).filterMap id).filter (fun t => !t.isEmpty) :=
  ⟨deepseekStream_eq chunks, volcStream_eq chunks⟩

/-- Claim C9: when the last delta carrying a (non-null) response value has a
    non-empty value `v`, both the sync and the async client append exactly one
    assistant message with content `v` after the user message; when no delta
    carried a non-empty response, no assistant message is appended. -/
theorem C9_history_append (history : List Message) (userMsg : Str) (events : List SSEEvent) :
    (∀ v : Str, (carriedResponses events).getLast? = some v → v ≠ [] →
      clientConversationStream history userMsg (Except.ok events)
          = history ++ [⟨"user", userMsg⟩] ++ [⟨"assistant", v⟩] ∧
      clientConversationStreamAsync history userMsg (Except.ok events)
          = history ++ [⟨"user", userMsg⟩] ++ [⟨"assistant", v⟩]) ∧
    ((∀ s ∈ carriedResponses events, s = []) →
      clientConversationStream history userMsg (Except.ok events)
          = history ++ [⟨"user", userMsg⟩] ∧
      clientConversationStreamAsync history userMsg (Except.ok events)
          = history ++ [⟨"user", userMsg⟩]) := by
  constructor
  · intro v hlast hne
    have hemp : (!v.isEmpty) = true := by
      cases v with
      | nil => exact absurd rfl hne
      | cons _ _ => rfl
    have hsync : syncFinalResponse events [] = v := by
      rw [syncFinal_eq, hlast]
      rfl
    have hasync : asyncFinalResponse events [] = v := by
      rw [asyncFinal_eq]
      rcases List.getLast?_eq_some_iff.mp hlast with ⟨l', hl⟩
      rw [hl, List.filter_append]
      have h1 : List.filter (fun t => !t.isEmpty) [v] = [v] := by
        rw [List.filter_cons, if_pos hemp]
        rfl
      rw [h1, List.getLast?_concat]
      rfl
    constructor
    · rw [clientConversationStream_ok, hsync]
      unfold clientStreamAppend
      rw [if_pos hne]
    · rw [clientConversationStreamAsync_ok, hasync]
      unfold clientStreamAppend
      rw [if_pos hne]
  · intro hall
    have hsync0 : syncFinalResponse events [] = [] := by
      rw [syncFinal_eq]
      rcases hc : (carriedResponses events).getLast? with _ | v
      · rfl
      · rcases List.getLast?_eq_some_iff.mp hc with ⟨l', hl⟩
        have hv : v ∈ carriedResponses events := by
          rw [hl]
          exact List.mem_append.mpr (Or.inr (by simp))
        exact hall v hv
    have hasync0 : asyncFinalResponse events [] = [] := by
      rw [asyncFinal_eq]
      have hfempty : (carriedResponses events).filter (fun t => !t.isEmpty) = [] := by
        apply List.filter_eq_nil_iff.mpr
        intro t ht
        rw [hall t ht]
        simp
      rw [hfempty]
      rfl
    constructor
    · rw [clientConversationStream_ok, hsync0]
      unfold clientStreamAppend
      rw [if_neg (by simp)]
    · rw [clientConversationStreamAsync_ok, hasync0]
      unfold clientStreamAppend
      rw [if_neg (by simp)]

/-- Witness for `C9_history_append` on a one-event stream carrying the
    response `"ok"`. -/
theorem C9_history_append_witness :
    clientConversationStream [] (chars "hi") (Except.ok [⟨some (some (chars "ok"))⟩])
        = [] ++ [⟨"user", chars "hi"⟩] ++ [⟨"assistant", chars "ok"⟩] ∧
    clientConversationStreamAsync [] (chars "hi") (Except.ok [⟨some (some (chars "ok"))⟩])
        = [] ++ [⟨"user", chars "hi"⟩] ++ [⟨"assistant", chars "ok"⟩] :=
  (C9_history_append [] (chars "hi") [⟨some (some (chars "ok"))⟩]).1 (chars "ok")
    (by decide) (by decide)

/-- Claim C10: the user message is appended to the history before the request
    is issued, so the resulting history always extends
    `history ++ [user message]`; on a failed call the history is exactly
    the old history plus that user message — grown by one user message with no
    matching assistant message, never rolled back. -/
theorem C10_history_user_append (history : List Message) (userMsg : Str)
    (outcome : Except String Str) (soutcome : Except String (List SSEEvent)) :
    (∃ rest, (clientConversation history userMsg outcome).1
        = history ++ [⟨"user", userMsg⟩] ++ rest) ∧
    (∀ e, outcome = Except.error e →
      (clientConversation history userMsg outcome).1 = history ++ [⟨"user", userMsg⟩]) ∧
    (∃ rest, clientConversationStream history userMsg soutcome
        = history ++ [⟨"user", userMsg⟩] ++ rest) ∧
    (∀ e, soutcome = Except.error e →
      clientConversationStream history userMsg soutcome = history ++ [⟨"user", userMsg⟩]) := by
  refine ⟨?_, ?_, ?_, ?_⟩
  · cases outcome with
    | error e => exact ⟨[], by simp [clientConversation]⟩
    | ok r => exact ⟨[⟨"assistant", r⟩], rfl⟩
  · intro e he
    subst he
    rfl
  · cases soutcome with
    | error e => exact ⟨[], by simp [clientConversationStream]⟩
    | ok events =>
      rw [clientConversationStream_ok]
      unfold clientStreamAppend
      by_cases hf : syncFinalResponse events [] ≠ []
      · exact ⟨[⟨"assistant", syncFinalResponse events []⟩], by rw [if_pos hf]⟩
      · exact ⟨[], by rw [if_neg hf]; simp⟩
  · intro e he
    subst he
    rfl

/-- Witness for `C10_history_user_append` on a failed call. -/
theorem C10_history_user_append_witness :
    (∃ rest, (clientConversation [] (chars "hi") (Except.error "boom")).1
        = [] ++ [⟨"user", chars "hi"⟩] ++ rest) ∧
    (∀ e, (Except.error "boom" : Except String Str) = Except.error e →
      (clientConversation [] (chars "hi") (Except.error "boom")).1
          = [] ++ [⟨"user", chars "hi"⟩]) ∧
    (∃ rest, clientConversationStream [] (chars "hi") (Except.error "boom")
        = [] ++ [⟨"user", chars "hi"⟩] ++ rest) ∧
    (∀ e, (Except.error "boom" : Except String (List SSEEvent)) = Except.error e →
      clientConversationStream [] (chars "hi") (Except.error "boom")
          = [] ++ [⟨"user", chars "hi"⟩]) :=
  C10_history_user_append [] (chars "hi") (Except.error "boom") (Except.error "boom")
